import Mathlib

/-!
Verification of the content/rendering pipeline of a static blog.

The TypeScript sources embedded here:
* `src/lib/posts.ts` — reading-time, excerpt derivation, post listing,
  sorting and pagination (`calculateReadingTime`, `generateExcerpt`,
  `getAllPosts`, `getPostsPage`, `getPostBySlug`);
* `src/lib/markdown.ts` — the mermaid fenced-block pre-pass of
  `markdownToHtml` (base64-encoded placeholder emission);
* `src/components/BlogPost.tsx` — the client-side placeholder payload
  extraction and base64 decoding of `renderContentWithMermaid`.

Strings are modelled as `List Char` (JavaScript strings are sequences of
UTF-16 code units; for the code-point ranges exercised here the two views
order and compare identically).  Bytes are modelled as `Nat` values below
256.  Each scanning function that JavaScript expresses as a regular
expression is implemented as an explicit character scanner with the same
matching semantics (leftmost match, lazy/greedy as in the original
pattern); fuel arguments make every scanner structurally recursive so
that all definitions evaluate inside the kernel.
-/

namespace Blog

/-- The whitespace class used by JavaScript's `\s`, `String.prototype.trim`
and the blog's regexes, restricted to the ASCII range that the content
pipeline exercises. -/
def isJsSpace (c : Char) : Bool :=
  c = ' ' || c = '\t' || c = '\n' || c = '\r' || c = '\x0b' || c = '\x0c'

/-- JavaScript `String.prototype.trim`: drop leading and trailing
whitespace. -/
def jsTrim (s : List Char) : List Char :=
  ((s.dropWhile isJsSpace).reverse.dropWhile isJsSpace).reverse

/-- Scanner for JavaScript `str.split(/\s+/)`.  The first argument records
whether we are currently inside a whitespace separator whose preceding
piece has already been emitted; the last argument accumulates the current
piece in reverse. -/
def splitWsAux : Bool → List Char → List Char → List (List Char)
  | false, [], acc => [acc.reverse]
  | false, c :: rest, acc =>
    if isJsSpace c then acc.reverse :: splitWsAux true rest []
    else splitWsAux false rest (c :: acc)
  | true, [], _ => [[]]
  | true, c :: rest, _ =>
    if isJsSpace c then splitWsAux true rest []
    else splitWsAux false rest [c]

/-- JavaScript `str.split(/\s+/)`: pieces between maximal whitespace runs,
with an empty leading (trailing) piece when the string starts (ends) with
whitespace, and `[""]` on the empty string. -/
def splitWs (s : List Char) : List (List Char) :=
  splitWsAux false s []

/-- `Math.ceil(a / b)` for natural `a` and positive natural `b`. -/
def jsCeilDiv (a b : Nat) : Nat :=
  (a + b - 1) / b

/-- From `src/lib/posts.ts`:
`const words = content.trim().split(/\s+/).length;
 return Math.ceil(words / wordsPerMinute);` with `wordsPerMinute = 200`. -/
def calculateReadingTime (content : String) : Nat :=
  jsCeilDiv (splitWs (jsTrim content.toList)).length 200

/-- Number of whitespace-delimited tokens (maximal non-whitespace runs);
the flag records whether the previous character belonged to a token.
This is the specification-side notion of word count. -/
def tokenCountAux : List Char → Bool → Nat
  | [], _ => 0
  | c :: rest, inWord =>
    if isJsSpace c then tokenCountAux rest false
    else (if inWord then 0 else 1) + tokenCountAux rest true

/-- Specification-side word count: the number of whitespace-delimited
tokens of the content. -/
def specWordCount (s : List Char) : Nat :=
  tokenCountAux s false

/-- Number of maximal whitespace runs; the flag records whether the
previous character was whitespace.  Auxiliary measure used to relate
`splitWs` to `specWordCount`. -/
def wsRunsAux : List Char → Bool → Nat
  | [], _ => 0
  | c :: rest, inRun =>
    if isJsSpace c then (if inRun then 0 else 1) + wsRunsAux rest true
    else wsRunsAux rest false

/-- Index of the first occurrence of `pat` in `s` (the position at which a
lazy `[\s\S]*?` followed by `pat` stops), or `none` when `pat` does not
occur. -/
def findSub (pat : List Char) : List Char → Option Nat
  | [] => if pat.isPrefixOf ([] : List Char) then some 0 else none
  | c :: rest =>
    if pat.isPrefixOf (c :: rest) then some 0
    else (findSub pat rest).map (· + 1)

/-- From `generateExcerpt`: the replacement of the anchored lazy pattern
"caret, three dashes, lazy any-character run, three dashes" by the empty
string — remove a leading front-matter block delimited by three-dash
pairs (anchored at the start, lazy body, single replacement). -/
def stripFrontmatterText (s : List Char) : List Char :=
  if ['-', '-', '-'].isPrefixOf s then
    match findSub ['-', '-', '-'] (s.drop 3) with
    | some i => (s.drop 3).drop (i + 3)
    | none => s
  else s

/-- Index of the last `'\n'` in `l`, or `none`. -/
def lastNlIdx (l : List Char) : Option Nat :=
  match l.reverse.findIdx? (· = '\n') with
  | some k => some (l.length - 1 - k)
  | none => none

/-- Match of the separator regex `/\n\s*\n/` at the head of `s`: a
newline, then greedy whitespace backtracking to the last newline of the
run.  Returns the matched length. -/
def paraMatch (s : List Char) : Option Nat :=
  match s with
  | [] => none
  | c :: rest =>
    if c = '\n' then
      match lastNlIdx (rest.takeWhile isJsSpace) with
      | some k => some (k + 2)
      | none => none
    else none

/-- Scanner for `str.split(/\n\s*\n/)`; fuel bounds the recursion (any
fuel at least the length of the string is sufficient, since every match
consumes at least two characters). -/
def splitParasF : Nat → List Char → List Char → List (List Char)
  | 0, s, acc => [acc.reverse ++ s]
  | _ + 1, [], acc => [acc.reverse]
  | fuel + 1, c :: rest, acc =>
    match paraMatch (c :: rest) with
    | some n => acc.reverse :: splitParasF fuel ((c :: rest).drop n) []
    | none => splitParasF fuel rest (c :: acc)

/-- `str.split(/\n\s*\n/)`: paragraphs separated by blank-line
boundaries. -/
def splitParas (s : List Char) : List (List Char) :=
  splitParasF s.length s []

/-- Generic scanner for a global regex replacement `str.replace(re, _)`:
at each position try the matcher (which returns the matched length and
the replacement text); on a match, emit the replacement and resume after
the match, otherwise keep the character and advance.  Fuel bounds the
recursion; fuel equal to the string length is sufficient because every
match of the patterns used here consumes at least one character. -/
def replaceScanF (tryM : List Char → Option (Nat × List Char)) :
    Nat → List Char → List Char
  | 0, s => s
  | _ + 1, [] => []
  | fuel + 1, c :: rest =>
    match tryM (c :: rest) with
    | some (n, rep) => rep ++ replaceScanF tryM fuel ((c :: rest).drop n)
    | none => c :: replaceScanF tryM fuel rest

/-- Global regex replacement over a whole string. -/
def replaceScan (tryM : List Char → Option (Nat × List Char))
    (s : List Char) : List Char :=
  replaceScanF tryM s.length s

/-- Matcher for `/#{1,6}\s+/` (heading markers): one to six `#` followed
by at least one whitespace character; the whitespace run is consumed
greedily and the whole match is deleted.  (Seven or more `#` at the
current position never match, since backtracking `#{1,6}` still faces a
`#` where `\s` is required.) -/
def headerTry (s : List Char) : Option (Nat × List Char) :=
  let k := (s.takeWhile (· = '#')).length
  if 1 ≤ k ∧ k ≤ 6 then
    let w := ((s.drop k).takeWhile isJsSpace).length
    if 1 ≤ w then some (k + w, []) else none
  else none

/-- Position of the first occurrence of `closer` reachable through
non-newline characters only (the search a lazy `(.*?)` performs before a
literal closer, `.` not matching newlines). -/
def findCloseNN (closer : List Char) : List Char → Option Nat
  | [] => if closer.isPrefixOf ([] : List Char) then some 0 else none
  | c :: rest =>
    if closer.isPrefixOf (c :: rest) then some 0
    else if c = '\n' then none
    else (findCloseNN closer rest).map (· + 1)

/-- Matcher for `/\*\*(.*?)\*\*/` (bold): replacement is the first
capture group. -/
def boldTry (s : List Char) : Option (Nat × List Char) :=
  if ['*', '*'].isPrefixOf s then
    match findCloseNN ['*', '*'] (s.drop 2) with
    | some i => some (2 + i + 2, (s.drop 2).take i)
    | none => none
  else none

/-- Matcher for `/\*(.*?)\*/` (italic). -/
def italicTry (s : List Char) : Option (Nat × List Char) :=
  if ['*'].isPrefixOf s then
    match findCloseNN ['*'] (s.drop 1) with
    | some i => some (1 + i + 1, (s.drop 1).take i)
    | none => none
  else none

/-- Search performed by `/\[(.*?)\]\(.*?\)/` after the opening bracket:
find the least split `(i, j)` such that `i` non-newline characters are
followed by `](`, then `j` non-newline characters followed by `)`.
Backtracking over the lazy first group is explicit: a `](` whose
parenthesis part fails is re-scanned as ordinary capture content. -/
def findLink : List Char → Option (Nat × Nat)
  | [] => none
  | c :: rest =>
    if c = '\n' then none
    else if c = ']' then
      match rest with
      | '(' :: rest2 =>
        match findCloseNN [')'] rest2 with
        | some j => some (0, j)
        | none => (findLink rest).map (fun p => (p.1 + 1, p.2))
      | _ => (findLink rest).map (fun p => (p.1 + 1, p.2))
    else (findLink rest).map (fun p => (p.1 + 1, p.2))

/-- Matcher for `/\[(.*?)\]\(.*?\)/` (links): replacement is the link
text. -/
def linkTry (s : List Char) : Option (Nat × List Char) :=
  if ['['].isPrefixOf s then
    match findLink (s.drop 1) with
    | some (i, j) => some (1 + i + 2 + j + 1, (s.drop 1).take i)
    | none => none
  else none

/-- Matcher for `` /`(.*?)`/ `` (inline code). -/
def codeTry (s : List Char) : Option (Nat × List Char) :=
  if ['`'].isPrefixOf s then
    match findCloseNN ['`'] (s.drop 1) with
    | some i => some (1 + i + 1, (s.drop 1).take i)
    | none => none
  else none

/-- Matcher for `/\n+/` replaced by a single space. -/
def nlTry (s : List Char) : Option (Nat × List Char) :=
  match s with
  | [] => none
  | c :: rest =>
    if c = '\n' then some ((rest.takeWhile (· = '\n')).length + 1, [' '])
    else none

/-- The cleanup chain `generateExcerpt` applies to the first paragraph:
remove headers, bold, italic, links (keeping the text), inline code, then
replace newline runs by single spaces and trim. -/
def cleanParagraph (p : List Char) : List Char :=
  jsTrim (replaceScan nlTry (replaceScan codeTry (replaceScan linkTry
    (replaceScan italicTry (replaceScan boldTry (replaceScan headerTry p))))))

/-- From `src/lib/posts.ts`, `generateExcerpt`: strip a leading
front-matter block, trim, split into paragraphs on `/\n\s*\n/`, return
the cleaned first paragraph (the `paragraphs.length === 0` guard of the
source is subsumed by the empty-list case). -/
def generateExcerpt (content : String) : String :=
  match splitParas (jsTrim (stripFrontmatterText content.toList)) with
  | [] => ""
  | p :: _ => (cleanParagraph p).asString

/-- Formalisation of the specification's wording for excerpt derivation:
take the FIRST NON-EMPTY paragraph (rather than literally the first
paragraph) of the front-matter-stripped text and clean it; if there is no
non-empty paragraph the excerpt is the empty string. -/
def specExcerpt (content : String) : String :=
  match (splitParas (jsTrim (stripFrontmatterText content.toList))).find?
      (fun p => !p.isEmpty) with
  | some p => (cleanParagraph p).asString
  | none => ""

/-- JavaScript `<` on strings: lexicographic comparison of code units
(for the code points occurring in date strings, identical to comparing
Lean character codes). -/
def lexLt : List Char → List Char → Bool
  | [], [] => false
  | [], _ :: _ => true
  | _ :: _, [] => false
  | a :: as, b :: bs =>
    if a.toNat < b.toNat then true
    else if b.toNat < a.toNat then false
    else lexLt as bs

/-- Front matter of a content file, as produced by the external
`gray-matter` parser (the parser itself is a third-party library, so its
output is taken as the input of the embedded accessor): the fields the
accessor reads, each possibly absent (`excerpt` is kept optional because
the accessor branches on its JavaScript truthiness). -/
structure FrontMatter where
  title : String
  date : String
  excerpt : Option String
deriving DecidableEq, Repr

/-- A content file after front-matter separation: file name, parsed
metadata and Markdown body. -/
structure SourceFile where
  name : String
  data : FrontMatter
  body : String
deriving DecidableEq, Repr

/-- The `Post` record of `src/lib/posts.ts` (the `excerpt` field is
always assigned a string by both constructors, so it is total here). -/
structure Post where
  slug : String
  title : String
  date : String
  excerpt : String
  content : String
  readingTime : Nat
deriving DecidableEq, Repr

/-- JavaScript `a || b` for an optional string `a`: `b` when `a` is
absent (`undefined`) or empty (falsy), otherwise `a`. -/
def jsOrString : Option String → String → String
  | some s, b => if s = "" then b else s
  | none, b => b

/-- The post construction shared by `getAllPosts` and `getPostBySlug`:
`{ slug, title: data.title, date: data.date,
   excerpt: data.excerpt || generateExcerpt(content), content,
   readingTime: calculateReadingTime(content) }`. -/
def buildPost (slug : String) (data : FrontMatter) (content : String) : Post :=
  { slug := slug
    title := data.title
    date := data.date
    excerpt := jsOrString data.excerpt (generateExcerpt content)
    content := content
    readingTime := calculateReadingTime content }

/-- `fileName.replace(/\.md$/, '')`: drop a trailing `.md` extension. -/
def stripMdExt (name : List Char) : List Char :=
  if ['.', 'm', 'd'].isSuffixOf name then name.take (name.length - 3)
  else name

/-- The comparator of `getAllPosts`:
`(a, b) => (a.date < b.date ? 1 : -1)`; `a` may precede `b` exactly when
the comparator is non-positive, i.e. when `a.date < b.date` fails. -/
def postLe (a b : Post) : Bool :=
  !lexLt a.date.toList b.date.toList

/-- From `src/lib/posts.ts`, `getAllPosts`: keep the `.md` files of the
posts directory, parse each into a `Post` (file reading and gray-matter
separation are modelled by the `SourceFile` inputs) and sort by date
descending with the source's comparator (a stable sort, as specified for
`Array.prototype.sort`). -/
def getAllPosts (files : List SourceFile) : List Post :=
  (((files.filter (fun f => ['.', 'm', 'd'].isSuffixOf f.name.toList)).map
    (fun f => buildPost (stripMdExt f.name.toList).asString f.data f.body)).mergeSort
    postLe)

/-- The page-listing structure returned by `getPostsPage`. -/
structure PageResult where
  posts : List Post
  totalPosts : Nat
  totalPages : Nat
  currentPage : Nat
  hasNextPage : Bool
  hasPrevPage : Bool
deriving DecidableEq, Repr

/-- From `src/lib/posts.ts`, `getPostsPage` (page numbers are 1-based;
`allPosts.slice(startIndex, endIndex)` is `drop` then `take`): returns
the paged listing together with the derived pagination fields.  The page
number and page size are naturals; all specified uses have
`page ≥ 1` and `postsPerPage ≥ 1`. -/
def getPostsPage (files : List SourceFile) (page postsPerPage : Nat) :
    PageResult :=
  let allPosts := getAllPosts files
  let startIndex := (page - 1) * postsPerPage
  let endIndex := startIndex + postsPerPage
  { posts := (allPosts.drop startIndex).take (endIndex - startIndex)
    totalPosts := allPosts.length
    totalPages := jsCeilDiv allPosts.length postsPerPage
    currentPage := page
    hasNextPage := decide (endIndex < allPosts.length)
    hasPrevPage := decide (1 < page) }

/-- From `src/lib/posts.ts`, `getPostBySlug`: read `${slug}.md` (the
filesystem is modelled as a partial map from file names to parsed
contents) and build the post; any failure — in particular a missing
file — is caught and surfaced as `none` (`null`). -/
def getPostBySlug (fsRead : String → Option (FrontMatter × String))
    (slug : String) : Option Post :=
  match fsRead (slug ++ ".md") with
  | some (data, content) => some (buildPost slug data content)
  | none => none

/-- The standard base64 alphabet, as used by Node's
`Buffer.prototype.toString('base64')`. -/
def base64Alphabet : List Char :=
  "ABCDEFGHIJKLMNOPQRSTUVWXYZabcdefghijklmnopqrstuvwxyz0123456789+/".toList

/-- Character of a 6-bit group. -/
def b64Char (n : Nat) : Char :=
  base64Alphabet.getD n 'A'

/-- 6-bit value of an alphabet character (`indexOf`). -/
def b64Val (c : Char) : Nat :=
  base64Alphabet.indexOf c

/-- Base64 encoding of a byte sequence (bytes are naturals below 256),
with `=` padding — the encoding performed by
`Buffer.from(chart.trim()).toString('base64')`. -/
def base64Encode : List Nat → List Char
  | [] => []
  | [a] => [b64Char (a / 4), b64Char (a % 4 * 16), '=', '=']
  | [a, b] => [b64Char (a / 4), b64Char (a % 4 * 16 + b / 16),
               b64Char (b % 16 * 4), '=']
  | a :: b :: c :: rest =>
    b64Char (a / 4) :: b64Char (a % 4 * 16 + b / 16) ::
    b64Char (b % 16 * 4 + c / 64) :: b64Char (c % 64) ::
    base64Encode rest

/-- Base64 decoding of a well-formed base64 string (quadruples of
alphabet characters, the last possibly padded) — the decoding performed
by `Buffer.from(encodedChart, 'base64')`. -/
def base64Decode : List Char → List Nat
  | c1 :: c2 :: c3 :: c4 :: rest =>
    if c3 = '=' then [b64Val c1 * 4 + b64Val c2 / 16]
    else if c4 = '=' then
      [b64Val c1 * 4 + b64Val c2 / 16, b64Val c2 % 16 * 16 + b64Val c3 / 4]
    else
      (b64Val c1 * 4 + b64Val c2 / 16) ::
      (b64Val c2 % 16 * 16 + b64Val c3 / 4) ::
      (b64Val c3 % 4 * 64 + b64Val c4) ::
      base64Decode rest
  | _ => []

/-- UTF-8 encoding of one Unicode scalar value. -/
def utf8EncodeChar (c : Char) : List Nat :=
  let n := c.toNat
  if n < 0x80 then [n]
  else if n < 0x800 then [0xC0 + n / 64, 0x80 + n % 64]
  else if n < 0x10000 then
    [0xE0 + n / 4096, 0x80 + n / 64 % 64, 0x80 + n % 64]
  else
    [0xF0 + n / 262144, 0x80 + n / 4096 % 64, 0x80 + n / 64 % 64,
     0x80 + n % 64]

/-- UTF-8 encoding of a character sequence (`Buffer.from(str)` encodes
the string as UTF-8). -/
def utf8Encode (cs : List Char) : List Nat :=
  cs.flatMap utf8EncodeChar

/-- UTF-8 decoding of a byte sequence
(`buffer.toString('utf-8')`); truncated trailing sequences are dropped.
Only applied to well-formed encoder output in the theorems below.  The
case split is on the shape of the list first (so that each equation is
a plain conditional), then on the class of the leading byte. -/
def utf8Decode : List Nat → List Char
  | [] => []
  | [b1] => if b1 < 0x80 then [Char.ofNat b1] else []
  | [b1, b2] =>
    if b1 < 0x80 then Char.ofNat b1 :: utf8Decode [b2]
    else if b1 < 0xE0 then [Char.ofNat ((b1 - 0xC0) * 64 + (b2 - 0x80))]
    else []
  | [b1, b2, b3] =>
    if b1 < 0x80 then Char.ofNat b1 :: utf8Decode [b2, b3]
    else if b1 < 0xE0 then
      Char.ofNat ((b1 - 0xC0) * 64 + (b2 - 0x80)) :: utf8Decode [b3]
    else if b1 < 0xF0 then
      [Char.ofNat ((b1 - 0xE0) * 4096 + (b2 - 0x80) * 64 + (b3 - 0x80))]
    else []
  | b1 :: b2 :: b3 :: b4 :: rest =>
    if b1 < 0x80 then Char.ofNat b1 :: utf8Decode (b2 :: b3 :: b4 :: rest)
    else if b1 < 0xE0 then
      Char.ofNat ((b1 - 0xC0) * 64 + (b2 - 0x80)) ::
        utf8Decode (b3 :: b4 :: rest)
    else if b1 < 0xF0 then
      Char.ofNat ((b1 - 0xE0) * 4096 + (b2 - 0x80) * 64 + (b3 - 0x80)) ::
        utf8Decode (b4 :: rest)
    else
      Char.ofNat ((b1 - 0xF0) * 262144 + (b2 - 0x80) * 4096 +
        (b3 - 0x80) * 64 + (b4 - 0x80)) :: utf8Decode rest

/-- The placeholder payload the mermaid pre-pass computes for the inner
text of a fenced block:
`Buffer.from(chart.trim()).toString('base64')`. -/
def mermaidPayload (chart : List Char) : List Char :=
  base64Encode (utf8Encode (jsTrim chart))

/-- The opening text of the emitted placeholder element, up to and
including the quote that starts the payload attribute value. -/
def placeholderOpen : List Char :=
  "<div data-mermaid-chart=\"".toList

/-- The text closing the emitted placeholder element. -/
def placeholderClose : List Char :=
  "\"></div>".toList

/-- The placeholder element emitted for a payload:
`<div data-mermaid-chart="...payload..."></div>`. -/
def placeholderDiv (payload : List Char) : List Char :=
  placeholderOpen ++ payload ++ placeholderClose

/-- Matcher for the fenced-block pattern of `markdownToHtml`: three
backticks, `mermaid`, a newline, a lazy any-character body, then a
newline and three backticks; the match is replaced by the placeholder
element carrying the base64 payload of the trimmed body. -/
def mermaidTry (s : List Char) : Option (Nat × List Char) :=
  if "```mermaid\n".toList.isPrefixOf s then
    match findSub "\n```".toList (s.drop 11) with
    | some i =>
      some (11 + i + 4, placeholderDiv (mermaidPayload ((s.drop 11).take i)))
    | none => none
  else none

/-- From `src/lib/markdown.ts`, the pre-pass of `markdownToHtml`: replace
every mermaid fenced block by a placeholder element.  (The subsequent
remark/rehype Markdown transform is an external library configured with
`allowDangerousHtml`, under which the placeholder passes through
verbatim; it is not part of the embedded logic.) -/
def mermaidPrePass (md : List Char) : List Char :=
  replaceScan mermaidTry md

/-- From `src/components/BlogPost.tsx`, `renderContentWithMermaid`: the
payload a placeholder part yields under the client-side match
`^<div data-mermaid-chart="([^"]*)">` — the characters between the
quotes. -/
def mermaidPartPayload (part : List Char) : Option (List Char) :=
  if placeholderOpen.isPrefixOf part then
    some ((part.drop placeholderOpen.length).takeWhile (· ≠ '"'))
  else none

/-- The client-side decoding of a placeholder payload:
`Buffer.from(encodedChart, 'base64').toString('utf-8')`. -/
def decodePayload (payload : List Char) : List Char :=
  utf8Decode (base64Decode payload)

/-- A concrete collection of ten content files used to instantiate the
pagination theorems (the scenario of the specification: ten posts, five
per page). -/
def sampleFiles10 : List SourceFile :=
  [⟨"p0.md", ⟨"t0", "2024-01-01", none⟩, "b0"⟩,
   ⟨"p1.md", ⟨"t1", "2024-01-02", none⟩, "b1"⟩,
   ⟨"p2.md", ⟨"t2", "2024-01-03", none⟩, "b2"⟩,
   ⟨"p3.md", ⟨"t3", "2024-01-04", none⟩, "b3"⟩,
   ⟨"p4.md", ⟨"t4", "2024-01-05", none⟩, "b4"⟩,
   ⟨"p5.md", ⟨"t5", "2024-01-06", none⟩, "b5"⟩,
   ⟨"p6.md", ⟨"t6", "2024-01-07", none⟩, "b6"⟩,
   ⟨"p7.md", ⟨"t7", "2024-01-08", none⟩, "b7"⟩,
   ⟨"p8.md", ⟨"t8", "2024-01-09", none⟩, "b8"⟩,
   ⟨"p9.md", ⟨"t9", "2024-01-10", none⟩, "b9"⟩]

/-! ## Arithmetic of `Math.ceil(a / b)` -/

theorem jsCeilDiv_zero (k : Nat) : jsCeilDiv 0 k = 0 := by
  unfold jsCeilDiv
  rcases Nat.eq_zero_or_pos k with hk | hk
  · simp [hk]
  · exact Nat.div_eq_of_lt (by omega)

theorem jsCeilDiv_step (k n : Nat) (hk : 0 < k) (hn : 0 < n) :
    jsCeilDiv n k = jsCeilDiv (n - k) k + 1 := by
  rcases le_or_lt k n with h | h
  · unfold jsCeilDiv
    have e : n + k - 1 = (n - k + k - 1) + k := by omega
    rw [e, Nat.add_div_right _ hk]
  · have e : n - k = 0 := by omega
    rw [e, jsCeilDiv_zero]
    unfold jsCeilDiv
    have a1 : 1 ≤ (n + k - 1) / k :=
      (Nat.le_div_iff_mul_le hk).2 (by omega)
    have a2 : (n + k - 1) / k < 2 :=
      (Nat.div_lt_iff_lt_mul hk).2 (by omega)
    omega

theorem le_jsCeilDiv_mul (k n : Nat) (hk : 0 < k) :
    n ≤ jsCeilDiv n k * k := by
  unfold jsCeilDiv
  have h := Nat.div_add_mod (n + k - 1) k
  have hm : (n + k - 1) % k < k := Nat.mod_lt _ hk
  have hc : k * ((n + k - 1) / k) = (n + k - 1) / k * k := Nat.mul_comm _ _
  omega

theorem jsCeilDiv_mul_lt (k n : Nat) (hk : 0 < k) :
    jsCeilDiv n k * k < n + k := by
  unfold jsCeilDiv
  have h := Nat.div_mul_le_self (n + k - 1) k
  omega

/-! ## Page slicing -/

theorem drop_take_chunks {α : Type} (k : Nat) (hk : 0 < k) :
    ∀ n (l : List α), l.length = n →
      ((List.range (jsCeilDiv l.length k)).map
        (fun i => (l.drop (i * k)).take k)).flatten = l := by
  intro n
  induction n using Nat.strong_induction_on with
  | _ n ih =>
    intro l hl
    cases l with
    | nil => simp [jsCeilDiv_zero]
    | cons c rest =>
      have hlen : 0 < (c :: rest).length := by simp
      rw [jsCeilDiv_step k _ hk hlen, List.range_succ_eq_map]
      rw [List.map_cons, List.map_map, List.flatten_cons]
      have hstep : ∀ i : Nat,
          ((fun i => ((c :: rest).drop (i * k)).take k) ∘ Nat.succ) i =
          (fun i => (((c :: rest).drop k).drop (i * k)).take k) i := by
        intro i
        simp only [Function.comp_apply]
        rw [List.drop_drop]
        have : Nat.succ i * k = k + i * k := by
          rw [Nat.succ_mul]; omega
        rw [this]
      rw [List.map_congr_left (fun i _ => hstep i)]
      have hdlen : ((c :: rest).drop k).length = (c :: rest).length - k := by
        simp
      have hrec := ih ((c :: rest).length - k)
        (by omega) ((c :: rest).drop k) (by simp)
      rw [hdlen] at hrec
      rw [hrec]
      simp

theorem page_mul (page pps : Nat) (h : 1 ≤ page) :
    (page - 1) * pps + pps = page * pps := by
  cases page with
  | zero => omega
  | succ p => simp [Nat.succ_mul]

/-! ## Claim theorems -/

/-- C3: for every post collection, page number ≥ 1 and page size > 0,
`getPostsPage` satisfies `totalPages == ceil(totalPosts / postsPerPage)`
(stated by the binder-free characterisation of the ceiling:
`totalPages * postsPerPage` lies in `[totalPosts, totalPosts + postsPerPage)`)
and `hasNextPage == (currentPage * postsPerPage < totalPosts)`. -/
theorem C3_pagination_invariants (files : List SourceFile)
    (page pps : Nat) (hpage : 1 ≤ page) (hpps : 0 < pps) :
    ((getPostsPage files page pps).totalPosts ≤
        (getPostsPage files page pps).totalPages * pps ∧
      (getPostsPage files page pps).totalPages * pps <
        (getPostsPage files page pps).totalPosts + pps) ∧
    (getPostsPage files page pps).hasNextPage =
      decide (page * pps < (getPostsPage files page pps).totalPosts) := by
  simp only [getPostsPage]
  refine ⟨⟨le_jsCeilDiv_mul pps _ hpps, jsCeilDiv_mul_lt pps _ hpps⟩, ?_⟩
  rw [page_mul page pps hpage]

/-- Witness for C3 at the ten-file collection, page 2, page size 5. -/
theorem C3_pagination_invariants_witness :
    (((getPostsPage sampleFiles10 2 5).totalPosts ≤
        (getPostsPage sampleFiles10 2 5).totalPages * 5 ∧
      (getPostsPage sampleFiles10 2 5).totalPages * 5 <
        (getPostsPage sampleFiles10 2 5).totalPosts + 5) ∧
    (getPostsPage sampleFiles10 2 5).hasNextPage =
      decide (2 * 5 < (getPostsPage sampleFiles10 2 5).totalPosts)) :=
  C3_pagination_invariants sampleFiles10 2 5 (by decide) (by decide)

/-- C4: for every post collection and page size > 0, concatenating the
`posts` of `getPostsPage` over pages `1..totalPages` in order
reconstructs the full sorted post sequence exactly (hence with no
duplicates or omissions), and every page holds at most `pageSize`
posts. -/
theorem C4_pages_partition (files : List SourceFile)
    (pps page : Nat) (hpps : 0 < pps) :
    ((List.range (getPostsPage files 1 pps).totalPages).map
      (fun i => (getPostsPage files (i + 1) pps).posts)).flatten =
      getAllPosts files ∧
    (getPostsPage files page pps).posts.length ≤ pps := by
  constructor
  · simp only [getPostsPage, Nat.add_sub_cancel, Nat.add_sub_cancel_left]
    exact drop_take_chunks pps hpps (getAllPosts files).length
      (getAllPosts files) rfl
  · simp only [getPostsPage, Nat.add_sub_cancel_left]
    rw [List.length_take]
    omega

/-- Witness for C4 at the ten-file collection, page size 3, page 2. -/
theorem C4_pages_partition_witness :
    (((List.range (getPostsPage sampleFiles10 1 3).totalPages).map
      (fun i => (getPostsPage sampleFiles10 (i + 1) 3).posts)).flatten =
      getAllPosts sampleFiles10 ∧
    (getPostsPage sampleFiles10 2 3).posts.length ≤ 3) :=
  C4_pages_partition sampleFiles10 3 2 (by decide)

/-- C5: for every page number past the last populated page (page size
positive), `getPostsPage` returns an empty posts sequence rather than
erroring, with `hasNextPage == false`. -/
theorem C5_out_of_range_page (files : List SourceFile)
    (page pps : Nat) (hpps : 0 < pps)
    (hpage : (getPostsPage files page pps).totalPages < page) :
    (getPostsPage files page pps).posts = [] ∧
    (getPostsPage files page pps).hasNextPage = false := by
  simp only [getPostsPage] at hpage ⊢
  have h1 : jsCeilDiv (getAllPosts files).length pps ≤ page - 1 := by omega
  have h2 : jsCeilDiv (getAllPosts files).length pps * pps ≤
      (page - 1) * pps := Nat.mul_le_mul_right pps h1
  have h3 : (getAllPosts files).length ≤ (page - 1) * pps :=
    le_trans (le_jsCeilDiv_mul pps _ hpps) h2
  constructor
  · rw [List.drop_eq_nil_of_le h3]
    simp
  · simp only [decide_eq_false_iff_not, not_lt]
    omega

/-- Witness for C5: the specification scenario — ten posts, page size 5,
requesting page 3 yields no posts and no next page. -/
theorem C5_out_of_range_page_witness :
    ((getPostsPage sampleFiles10 3 5).posts = [] ∧
     (getPostsPage sampleFiles10 3 5).hasNextPage = false) :=
  C5_out_of_range_page sampleFiles10 3 5 (by decide)
    (by
      simp only [getPostsPage, getAllPosts]
      rw [List.length_mergeSort, List.length_map]
      decide)

/-- C8: for every filesystem state and slug, `getPostBySlug` returns
either the matching post (its `slug` field is the requested slug) or the
explicit not-found signal `none`; being a total function into an option
type, it never throws, in particular when no file exists for the slug. -/
theorem C8_get_by_slug_total
    (fsRead : String → Option (FrontMatter × String)) (slug : String) :
    (getPostBySlug fsRead slug = none ∧ fsRead (slug ++ ".md") = none) ∨
    (∃ p, getPostBySlug fsRead slug = some p ∧ p.slug = slug) := by
  unfold getPostBySlug
  cases h : fsRead (slug ++ ".md") with
  | none => exact Or.inl ⟨rfl, rfl⟩
  | some v => exact Or.inr ⟨buildPost slug v.1 v.2, rfl, rfl⟩

/-- C9: when the front matter explicitly supplies an excerpt equal to the
empty string (a falsy value), the constructed post's excerpt is the
derived excerpt of the body, not the supplied empty string. -/
theorem C9_empty_excerpt_override (slug : String) (data : FrontMatter)
    (content : String) (h : data.excerpt = some "") :
    (buildPost slug data content).excerpt = generateExcerpt content := by
  simp [buildPost, jsOrString, h]

/-- Witness for C9 at a concrete file whose front matter carries an
explicit empty excerpt. -/
theorem C9_empty_excerpt_override_witness :
    (buildPost "post" ⟨"T", "2024-01-01", some ""⟩ "Hello world.").excerpt =
      generateExcerpt "Hello world." :=
  C9_empty_excerpt_override "post" ⟨"T", "2024-01-01", some ""⟩
    "Hello world." rfl

/-! ## The date order -/

theorem lexLt_irrefl : ∀ x : List Char, lexLt x x = false := by
  intro x
  induction x with
  | nil => rfl
  | cons a as ih => simp [lexLt, ih]

theorem lexLt_asymm : ∀ x y : List Char,
    lexLt x y = true → lexLt y x = false := by
  intro x
  induction x with
  | nil =>
    intro y h
    cases y with
    | nil => simp [lexLt] at h
    | cons b bs => simp [lexLt]
  | cons a as ih =>
    intro y h
    cases y with
    | nil => simp [lexLt] at h
    | cons b bs =>
      simp only [lexLt] at h ⊢
      rcases lt_trichotomy a.toNat b.toNat with hab | hab | hab
      · simp [hab, Nat.lt_asymm hab]
      · simp only [hab, lt_irrefl, if_false]
        simp only [hab, lt_irrefl, if_false] at h
        exact ih bs h
      · simp [hab, Nat.lt_asymm hab] at h

theorem lexLt_trans : ∀ x y z : List Char,
    lexLt x y = true → lexLt y z = true → lexLt x z = true := by
  intro x
  induction x with
  | nil =>
    intro y z hxy hyz
    cases y with
    | nil => simp [lexLt] at hxy
    | cons b bs =>
      cases z with
      | nil => simp [lexLt] at hyz
      | cons c cs => simp [lexLt]
  | cons a as ih =>
    intro y z hxy hyz
    cases y with
    | nil => simp [lexLt] at hxy
    | cons b bs =>
      cases z with
      | nil => simp [lexLt] at hyz
      | cons c cs =>
        simp only [lexLt] at hxy hyz ⊢
        rcases lt_trichotomy a.toNat b.toNat with hab | hab | hab
        · rcases lt_trichotomy b.toNat c.toNat with hbc | hbc | hbc
          · simp [show a.toNat < c.toNat from lt_trans hab hbc]
          · simp [hbc ▸ hab]
          · simp [hbc, Nat.lt_asymm hbc] at hyz
        · rw [hab]
          simp only [hab, lt_irrefl, if_false] at hxy
          rcases lt_trichotomy b.toNat c.toNat with hbc | hbc | hbc
          · simp [hbc]
          · simp only [hbc, lt_irrefl, if_false] at hyz ⊢
            exact ih bs cs hxy hyz
          · simp [hbc, Nat.lt_asymm hbc] at hyz
        · simp [hab, Nat.lt_asymm hab] at hxy

theorem lexLt_connex : ∀ x y : List Char,
    lexLt x y = false → lexLt y x = true ∨ x = y := by
  intro x
  induction x with
  | nil =>
    intro y h
    cases y with
    | nil => exact Or.inr rfl
    | cons b bs => simp [lexLt] at h
  | cons a as ih =>
    intro y h
    cases y with
    | nil => exact Or.inl (by simp [lexLt])
    | cons b bs =>
      simp only [lexLt] at h ⊢
      rcases lt_trichotomy a.toNat b.toNat with hab | hab | hab
      · simp [hab] at h
      · simp only [hab, lt_irrefl, if_false] at h ⊢
        rcases ih bs h with h' | h'
        · exact Or.inl h'
        · refine Or.inr ?_
          have : a = b := by
            have := Char.ofNat_toNat a
            rw [hab, Char.ofNat_toNat b] at this
            exact this.symm
          rw [this, h']
      · exact Or.inl (by simp [hab])

theorem postLe_total (a b : Post) : (postLe a b || postLe b a) = true := by
  unfold postLe
  cases h : lexLt a.date.toList b.date.toList with
  | false => simp
  | true => rw [lexLt_asymm _ _ h]; simp

theorem postLe_trans (a b c : Post) (hab : postLe a b = true)
    (hbc : postLe b c = true) : postLe a c = true := by
  simp only [postLe, Bool.not_eq_true'] at hab hbc ⊢
  cases hac : lexLt a.date.toList c.date.toList with
  | false => rfl
  | true =>
    exfalso
    rcases lexLt_connex _ _ hab with h1 | h1
    · rcases lexLt_connex _ _ hbc with h2 | h2
      · have h3 := lexLt_trans _ _ _ h2 h1
        have h4 := lexLt_asymm _ _ hac
        rw [h4] at h3
        exact Bool.false_ne_true h3
      · rw [h2] at h1
        have h4 := lexLt_asymm _ _ hac
        rw [h4] at h1
        exact Bool.false_ne_true h1
    · rw [h1] at hac
      rw [hac] at hbc
      exact Bool.false_ne_true hbc.symm

/-- C6: the sequence returned by `getAllPosts` is sorted by date in
descending order: for every pair of adjacent posts, the earlier post's
date is not less than the later post's date. -/
theorem C6_sorted_descending (files : List SourceFile) :
    List.Chain' (fun a b => lexLt a.date.toList b.date.toList = false)
      (getAllPosts files) := by
  unfold getAllPosts
  have hs := @List.sorted_mergeSort Post postLe
    (fun a b c => postLe_trans a b c)
    (fun a b => postLe_total a b)
    ((files.filter (fun f => ['.', 'm', 'd'].isSuffixOf f.name.toList)).map
      (fun f => buildPost (stripMdExt f.name.toList).asString f.data f.body))
  refine List.Pairwise.chain' (hs.imp ?_)
  intro a b h
  simp only [postLe, Bool.not_eq_true'] at h
  exact h

/-! ## Reading time: relating the split length to the token count -/

theorem dropWhile_head_false (p : Char → Bool) (l : List Char) :
    l.dropWhile p = [] ∨
    ∃ c r, l.dropWhile p = c :: r ∧ p c = false := by
  induction l with
  | nil => exact Or.inl rfl
  | cons c rest ih =>
    by_cases h : p c
    · rw [List.dropWhile_cons_of_pos h]
      exact ih
    · rw [List.dropWhile_cons_of_neg h]
      exact Or.inr ⟨c, rest, rfl, by simpa using h⟩

/-- Decomposition of the left-trimmed string into the fully trimmed
string and an all-whitespace suffix. -/
theorem jsTrim_decomp (s : List Char) :
    s.dropWhile isJsSpace =
      jsTrim s ++ ((s.dropWhile isJsSpace).reverse.takeWhile isJsSpace).reverse ∧
    ∀ c ∈ ((s.dropWhile isJsSpace).reverse.takeWhile isJsSpace).reverse,
      isJsSpace c = true := by
  constructor
  · have h : jsTrim s ++
        ((s.dropWhile isJsSpace).reverse.takeWhile isJsSpace).reverse =
        s.dropWhile isJsSpace := by
      show ((s.dropWhile isJsSpace).reverse.dropWhile isJsSpace).reverse ++
        ((s.dropWhile isJsSpace).reverse.takeWhile isJsSpace).reverse =
        s.dropWhile isJsSpace
      rw [← List.reverse_append, List.takeWhile_append_dropWhile,
        List.reverse_reverse]
    exact h.symm
  · intro c hc
    rw [List.mem_reverse] at hc
    exact List.mem_takeWhile_imp hc

theorem tokenCountAux_all_ws (sfx : List Char)
    (h : ∀ c ∈ sfx, isJsSpace c = true) : ∀ b, tokenCountAux sfx b = 0 := by
  induction sfx with
  | nil => intro b; rfl
  | cons c rest ih =>
    intro b
    have hc : isJsSpace c = true := h c (List.mem_cons_self c rest)
    simp only [tokenCountAux, hc, if_true]
    exact ih (fun d hd => h d (List.mem_cons_of_mem c hd)) false

theorem tokenCountAux_append_ws (l sfx : List Char)
    (h : ∀ c ∈ sfx, isJsSpace c = true) :
    ∀ b, tokenCountAux (l ++ sfx) b = tokenCountAux l b := by
  induction l with
  | nil =>
    intro b
    rw [List.nil_append]
    exact tokenCountAux_all_ws sfx h b
  | cons c rest ih =>
    intro b
    by_cases hc : isJsSpace c
    · simp [tokenCountAux, hc, ih false]
    · simp [tokenCountAux, hc, ih true]

theorem tokenCountAux_dropWhile (s : List Char) :
    tokenCountAux (s.dropWhile isJsSpace) false = tokenCountAux s false := by
  induction s with
  | nil => rfl
  | cons c rest ih =>
    by_cases hc : isJsSpace c
    · rw [List.dropWhile_cons_of_pos hc]
      rw [ih]
      simp [tokenCountAux, hc]
    · rw [List.dropWhile_cons_of_neg hc]

/-- The trimmed string has the same token count as the original. -/
theorem specWordCount_trim (s : List Char) :
    specWordCount s = tokenCountAux (jsTrim s) false := by
  unfold specWordCount
  obtain ⟨hdec, hws⟩ := jsTrim_decomp s
  rw [← tokenCountAux_dropWhile s, hdec, tokenCountAux_append_ws _ _ hws]

/-- The number of pieces `split` on whitespace runs produces is the
number of whitespace runs plus one. -/
theorem splitWsAux_length (s : List Char) :
    (∀ acc, (splitWsAux false s acc).length = wsRunsAux s false + 1) ∧
    (splitWsAux true s []).length = wsRunsAux s true + 1 := by
  induction s with
  | nil => exact ⟨fun acc => rfl, rfl⟩
  | cons c rest ih =>
    constructor
    · intro acc
      by_cases hc : isJsSpace c
      · simp [splitWsAux, wsRunsAux, hc, ih.2]
        omega
      · simp only [splitWsAux, wsRunsAux, hc, if_false]
        exact ih.1 (c :: acc)
    · by_cases hc : isJsSpace c
      · simp [splitWsAux, wsRunsAux, hc, ih.2]
      · simp only [splitWsAux, wsRunsAux, hc, if_false]
        exact ih.1 [c]

/-- For strings with no trailing whitespace, the token count equals the
whitespace-run count up to the starting flag. -/
theorem tokenCount_wsRuns (s : List Char) :
    ((∀ c, s.getLast? = some c → isJsSpace c = false) →
      tokenCountAux s true = wsRunsAux s false) ∧
    ((∀ c, s.getLast? = some c → isJsSpace c = false) →
      (∃ c ∈ s, isJsSpace c = false) →
      tokenCountAux s false = 1 + wsRunsAux s true) := by
  induction s with
  | nil =>
    refine ⟨fun _ => rfl, fun _ h => ?_⟩
    obtain ⟨c, hc, _⟩ := h
    exact absurd hc (List.not_mem_nil c)
  | cons c rest ih =>
    have hrest : ∀ d : Char, rest ≠ [] →
        ((c :: rest).getLast? = some d ↔ rest.getLast? = some d) := by
      intro d hne
      cases rest with
      | nil => exact absurd rfl hne
      | cons e r => rw [List.getLast?_cons_cons]
    constructor
    · intro hlast
      by_cases hc : isJsSpace c
      · -- whitespace head: the tail must contain a non-whitespace char
        have hne : rest ≠ [] := by
          intro he
          subst he
          have := hlast c (List.getLast?_singleton c)
          rw [hc] at this
          exact Bool.false_ne_true this.symm
        have hlast' : ∀ d, rest.getLast? = some d → isJsSpace d = false := by
          intro d hd
          exact hlast d ((hrest d hne).2 hd)
        have hnonws : ∃ d ∈ rest, isJsSpace d = false := by
          cases he : rest.getLast? with
          | none => exact absurd (List.getLast?_eq_none_iff.1 he) hne
          | some d =>
            exact ⟨d, List.mem_of_mem_getLast? he, hlast' d he⟩
        simp only [tokenCountAux, wsRunsAux, hc, if_true]
        rw [(ih.2) hlast' hnonws]
        simp
      · simp only [tokenCountAux, wsRunsAux, hc, if_false, if_true]
        cases rest with
        | nil => rfl
        | cons e r =>
          have hlast' : ∀ d, (e :: r).getLast? = some d →
              isJsSpace d = false := by
            intro d hd
            exact hlast d ((hrest d (by simp)).2 hd)
          rw [(ih.1) hlast']
          simp
    · intro hlast _
      by_cases hc : isJsSpace c
      · have hne : rest ≠ [] := by
          intro he
          subst he
          have := hlast c (List.getLast?_singleton c)
          rw [hc] at this
          exact Bool.false_ne_true this.symm
        have hlast' : ∀ d, rest.getLast? = some d → isJsSpace d = false := by
          intro d hd
          exact hlast d ((hrest d hne).2 hd)
        have hnonws : ∃ d ∈ rest, isJsSpace d = false := by
          cases he : rest.getLast? with
          | none => exact absurd (List.getLast?_eq_none_iff.1 he) hne
          | some d =>
            exact ⟨d, List.mem_of_mem_getLast? he, hlast' d he⟩
        simp only [tokenCountAux, wsRunsAux, hc, if_true]
        rw [(ih.2) hlast' hnonws]
        simp
      · simp only [tokenCountAux, wsRunsAux, hc, if_false, if_true]
        cases rest with
        | nil => rfl
        | cons e r =>
          have hlast' : ∀ d, (e :: r).getLast? = some d →
              isJsSpace d = false := by
            intro d hd
            exact hlast d ((hrest d (by simp)).2 hd)
          rw [(ih.1) hlast']
          simp

/-- The trimmed string has no trailing whitespace. -/
theorem jsTrim_getLast (s : List Char) :
    ∀ c, (jsTrim s).getLast? = some c → isJsSpace c = false := by
  intro c hc
  unfold jsTrim at hc
  rw [List.getLast?_reverse] at hc
  rcases dropWhile_head_false isJsSpace (s.dropWhile isJsSpace).reverse
    with h | ⟨d, r, hd, hdf⟩
  · rw [h] at hc
    exact absurd hc (by simp)
  · rw [hd] at hc
    simp only [List.head?_cons, Option.some.injEq] at hc
    rw [← hc]
    exact hdf

/-- The trimmed string has no leading whitespace. -/
theorem jsTrim_head (s : List Char) (c : Char) (r : List Char)
    (h : jsTrim s = c :: r) : isJsSpace c = false := by
  obtain ⟨hdec, _⟩ := jsTrim_decomp s
  rw [h] at hdec
  rcases dropWhile_head_false isJsSpace s with h0 | ⟨d, r', hd, hdf⟩
  · rw [h0] at hdec
    exact absurd hdec.symm (by simp)
  · rw [hd] at hdec
    rw [List.cons_append] at hdec
    have hdc : d = c := by injection hdec
    rw [← hdc]
    exact hdf

/-- C2 (amended): for every content string, the reading time equals
`max 1 (ceil(w / 200))` where `w` is the number of whitespace-delimited
tokens of the body — the `max 1` (forced by the counterexample of the
empty split artefact on token-free content) being the only departure
from the claim — and the reading time is at least 1 for all content,
in particular non-empty content. -/
theorem C2_reading_time_amended (content : String) :
    calculateReadingTime content =
      max 1 (jsCeilDiv (specWordCount content.toList) 200) ∧
    1 ≤ calculateReadingTime content := by
  rw [specWordCount_trim]
  unfold calculateReadingTime
  cases h : jsTrim content.toList with
  | nil => exact ⟨by decide, by decide⟩
  | cons c r =>
    have hcws := jsTrim_head content.toList c r h
    have hsplit := (splitWsAux_length (c :: r)).1 []
    have hQ := (tokenCount_wsRuns (c :: r)).2
      (fun d hd => by rw [← h] at hd; exact jsTrim_getLast content.toList d hd)
      ⟨c, List.mem_cons_self c r, hcws⟩
    have hflag : wsRunsAux (c :: r) false = wsRunsAux (c :: r) true := by
      simp [wsRunsAux, hcws]
    unfold splitWs at hsplit ⊢
    rw [hsplit, hflag, hQ]
    unfold jsCeilDiv
    omega

/-- Counterexample to C2 as stated: for the empty content string the
code yields reading time 1 while `ceil(wordCount / 200)` is 0, since the
empty content has no whitespace-delimited tokens. -/
theorem C2_reading_time_counterexample :
    calculateReadingTime "" = 1 ∧
    jsCeilDiv (specWordCount "".toList) 200 = 0 := by decide

/-- C10: for the empty content string and any whitespace-only content
string, the derived reading time is exactly 1 (never 0): the trimmed
string is empty, its split on whitespace is the one-element list holding
the empty token, so the word count is 1 and `ceil(1/200) = 1`. -/
theorem C10_ws_only_reading_time (content : String)
    (h : ∀ c ∈ content.toList, isJsSpace c = true) :
    calculateReadingTime content = 1 := by
  have h1 : content.toList.dropWhile isJsSpace = [] :=
    List.dropWhile_eq_nil_iff.2 h
  have h2 : jsTrim content.toList = [] := by
    unfold jsTrim
    rw [h1]
    rfl
  unfold calculateReadingTime
  rw [h2]
  decide

/-- Witness for C10 at a whitespace-only content string. -/
theorem C10_ws_only_reading_time_witness : calculateReadingTime " \t " = 1 :=
  C10_ws_only_reading_time " \t " (by decide)

/-! ## Excerpt derivation -/

theorem paraMatch_of_head (c : Char) (r : List Char) (hc : c ≠ '\n') :
    paraMatch (c :: r) = none := by
  simp [paraMatch, hc]

/-- The first piece produced by the paragraph splitter extends the
accumulator. -/
theorem splitParasF_head : ∀ (fuel : Nat) (s acc : List Char),
    ∃ t ps, splitParasF fuel s acc = (acc.reverse ++ t) :: ps := by
  intro fuel
  induction fuel with
  | zero => exact fun s acc => ⟨s, [], rfl⟩
  | succ fuel ih =>
    intro s acc
    cases s with
    | nil => exact ⟨[], [], by simp [splitParasF]⟩
    | cons c rest =>
      cases hm : paraMatch (c :: rest) with
      | some n =>
        exact ⟨[], splitParasF fuel ((c :: rest).drop n) [],
          by simp [splitParasF, hm]⟩
      | none =>
        obtain ⟨t, ps, hps⟩ := ih rest (c :: acc)
        refine ⟨c :: t, ps, ?_⟩
        simp only [splitParasF, hm]
        rw [hps]
        simp

/-- C7: for every body text, the derived excerpt agrees with the
specification's description (front matter stripped, paragraphs split on
blank-line boundaries, the first non-empty paragraph cleaned of heading,
bold, italic, link and inline-code markers with newlines collapsed; empty
when there is no paragraph); in particular the body `"Hello world."`
yields the excerpt `"Hello world."`. -/
theorem C7_excerpt_refinement :
    (∀ content : String, generateExcerpt content = specExcerpt content) ∧
    generateExcerpt "Hello world." = "Hello world." := by
  constructor
  · intro content
    unfold generateExcerpt specExcerpt
    cases h : jsTrim (stripFrontmatterText content.toList) with
    | nil => decide
    | cons c r =>
      have hcnl : c ≠ '\n' := by
        have hws := jsTrim_head _ c r h
        intro he
        rw [he] at hws
        exact absurd hws (by decide)
      have hm := paraMatch_of_head c r hcnl
      have hsp : splitParas (c :: r) = splitParasF r.length r [c] := by
        show splitParasF (r.length + 1) (c :: r) [] = _
        simp [splitParasF, hm]
      obtain ⟨t, ps, hps⟩ := splitParasF_head r.length r [c]
      simp only [List.reverse_cons, List.reverse_nil, List.nil_append,
        List.singleton_append] at hps
      rw [hsp, hps]
      rw [List.find?_cons_of_pos _ (by simp)]
  · decide

/-! ## Base64 and UTF-8 round trips -/

theorem b64Char_mem (n : Nat) : b64Char n ∈ base64Alphabet := by
  unfold b64Char List.getD
  cases h : base64Alphabet.get? n with
  | none => decide
  | some c =>
    simp only [Option.getD_some]
    exact List.get?_mem h

theorem b64Char_ne (n : Nat) : b64Char n ≠ '=' ∧ b64Char n ≠ '"' := by
  have hmem := b64Char_mem n
  have hall : ∀ c ∈ base64Alphabet, c ≠ '=' ∧ c ≠ '"' := by decide
  exact hall _ hmem

theorem b64Val_b64Char : ∀ n, n < 64 → b64Val (b64Char n) = n := by decide

theorem base64_roundtrip : ∀ bs : List Nat, (∀ b ∈ bs, b < 256) →
    base64Decode (base64Encode bs) = bs := by
  intro bs
  induction bs using base64Encode.induct with
  | case1 => intro _; rfl
  | case2 a =>
    intro h
    have ha : a < 256 := h a (by simp)
    simp only [base64Encode, base64Decode, (b64Char_ne _).1, if_true,
      if_pos rfl]
    rw [b64Val_b64Char _ (by omega), b64Val_b64Char _ (by omega)]
    have : a / 4 * 4 + a % 4 * 16 / 16 = a := by omega
    rw [this]
  | case3 a b =>
    intro h
    have ha : a < 256 := h a (by simp)
    have hb : b < 256 := h b (by simp)
    simp only [base64Encode, base64Decode]
    rw [if_neg (b64Char_ne (b % 16 * 4)).1]
    simp only [if_true]
    rw [b64Val_b64Char _ (by omega), b64Val_b64Char _ (by omega),
      b64Val_b64Char _ (by omega)]
    have h1 : a / 4 * 4 + (a % 4 * 16 + b / 16) / 16 = a := by omega
    have h2 : (a % 4 * 16 + b / 16) % 16 * 16 + b % 16 * 4 / 4 = b := by
      omega
    rw [h1, h2]
  | case4 a b c rest ih =>
    intro h
    have ha : a < 256 := h a (by simp)
    have hb : b < 256 := h b (by simp)
    have hc : c < 256 := h c (by simp)
    simp only [base64Encode, base64Decode]
    rw [if_neg (b64Char_ne (b % 16 * 4 + c / 64)).1,
      if_neg (b64Char_ne (c % 64)).1]
    rw [b64Val_b64Char _ (by omega), b64Val_b64Char _ (by omega),
      b64Val_b64Char _ (by omega), b64Val_b64Char _ (by omega)]
    have h1 : a / 4 * 4 + (a % 4 * 16 + b / 16) / 16 = a := by omega
    have h2 : (a % 4 * 16 + b / 16) % 16 * 16 +
        (b % 16 * 4 + c / 64) / 4 = b := by omega
    have h3 : (b % 16 * 4 + c / 64) % 4 * 64 + c % 64 = c := by omega
    rw [h1, h2, h3, ih (fun x hx => h x (by simp [hx]))]

theorem char_toNat_lt (c : Char) : c.toNat < 1114112 := by
  have h := c.valid
  unfold UInt32.isValidChar Nat.isValidChar at h
  have he : c.toNat = c.val.toNat := rfl
  rcases h with h | h <;> omega

theorem utf8EncodeChar_lt (c : Char) : ∀ b ∈ utf8EncodeChar c, b < 256 := by
  intro b hb
  have hc := char_toNat_lt c
  unfold utf8EncodeChar at hb
  by_cases h1 : c.toNat < 0x80
  · simp only [h1, if_true, List.mem_singleton] at hb
    omega
  · by_cases h2 : c.toNat < 0x800
    · simp only [h1, h2, if_false, if_true, List.mem_cons,
        List.not_mem_nil, or_false] at hb
      rcases hb with hb | hb <;> omega
    · by_cases h3 : c.toNat < 0x10000
      · simp only [h1, h2, h3, if_false, if_true, List.mem_cons,
          List.not_mem_nil, or_false] at hb
        rcases hb with hb | hb | hb <;> omega
      · simp only [h1, h2, h3, if_false, List.mem_cons,
          List.not_mem_nil, or_false] at hb
        rcases hb with hb | hb | hb | hb <;> omega

theorem utf8Encode_lt (cs : List Char) : ∀ b ∈ utf8Encode cs, b < 256 := by
  intro b hb
  unfold utf8Encode at hb
  rw [List.mem_flatMap] at hb
  obtain ⟨c, _, hbc⟩ := hb
  exact utf8EncodeChar_lt c b hbc

theorem utf8Decode_one (b1 : Nat) (h : b1 < 0x80) :
    ∀ tail, utf8Decode (b1 :: tail) = Char.ofNat b1 :: utf8Decode tail := by
  intro tail
  match tail with
  | [] => simp [utf8Decode, h]
  | [x] => simp [utf8Decode, h]
  | [x, y] => simp [utf8Decode, h]
  | x :: y :: z :: zs => simp [utf8Decode, h]

theorem utf8Decode_two (b1 b2 : Nat) (h1 : ¬ b1 < 0x80) (h2 : b1 < 0xE0) :
    ∀ tail, utf8Decode (b1 :: b2 :: tail) =
      Char.ofNat ((b1 - 0xC0) * 64 + (b2 - 0x80)) :: utf8Decode tail := by
  intro tail
  match tail with
  | [] => simp [utf8Decode, h1, h2]
  | [x] => simp [utf8Decode, h1, h2]
  | x :: y :: ys => simp [utf8Decode, h1, h2]

theorem utf8Decode_three (b1 b2 b3 : Nat) (h1 : ¬ b1 < 0x80)
    (h2 : ¬ b1 < 0xE0) (h3 : b1 < 0xF0) :
    ∀ tail, utf8Decode (b1 :: b2 :: b3 :: tail) =
      Char.ofNat ((b1 - 0xE0) * 4096 + (b2 - 0x80) * 64 + (b3 - 0x80)) ::
        utf8Decode tail := by
  intro tail
  match tail with
  | [] => simp [utf8Decode, h1, h2, h3]
  | x :: xs => simp [utf8Decode, h1, h2, h3]

theorem utf8Decode_four (b1 b2 b3 b4 : Nat) (h1 : ¬ b1 < 0x80)
    (h2 : ¬ b1 < 0xE0) (h3 : ¬ b1 < 0xF0) (tail : List Nat) :
    utf8Decode (b1 :: b2 :: b3 :: b4 :: tail) =
      Char.ofNat ((b1 - 0xF0) * 262144 + (b2 - 0x80) * 4096 +
        (b3 - 0x80) * 64 + (b4 - 0x80)) :: utf8Decode tail := by
  simp [utf8Decode, h1, h2, h3]

theorem utf8_roundtrip : ∀ cs : List Char,
    utf8Decode (utf8Encode cs) = cs := by
  intro cs
  induction cs with
  | nil => rfl
  | cons c rest ih =>
    have hstep : utf8Encode (c :: rest) =
        utf8EncodeChar c ++ utf8Encode rest := by
      unfold utf8Encode
      rw [List.flatMap_cons]
    rw [hstep]
    unfold utf8EncodeChar
    by_cases h1 : c.toNat < 0x80
    · simp only [h1, if_true, List.cons_append, List.nil_append]
      rw [utf8Decode_one _ h1, Char.ofNat_toNat, ih]
    · by_cases h2 : c.toNat < 0x800
      · simp only [h1, h2, if_false, if_true, List.cons_append,
          List.nil_append]
        rw [utf8Decode_two _ _ (by omega) (by omega)]
        have hs : (0xC0 + c.toNat / 64 - 0xC0) * 64 +
            (0x80 + c.toNat % 64 - 0x80) = c.toNat := by omega
        rw [hs, Char.ofNat_toNat, ih]
      · by_cases h3 : c.toNat < 0x10000
        · simp only [h1, h2, h3, if_false, if_true, List.cons_append,
            List.nil_append]
          rw [utf8Decode_three _ _ _ (by omega) (by omega) (by omega)]
          have hs : (0xE0 + c.toNat / 4096 - 0xE0) * 4096 +
              (0x80 + c.toNat / 64 % 64 - 0x80) * 64 +
              (0x80 + c.toNat % 64 - 0x80) = c.toNat := by omega
          rw [hs, Char.ofNat_toNat, ih]
        · simp only [h1, h2, h3, if_false, List.cons_append,
            List.nil_append]
          rw [utf8Decode_four _ _ _ _ (by omega) (by omega) (by omega)]
          have hs : (0xF0 + c.toNat / 262144 - 0xF0) * 262144 +
              (0x80 + c.toNat / 4096 % 64 - 0x80) * 4096 +
              (0x80 + c.toNat / 64 % 64 - 0x80) * 64 +
              (0x80 + c.toNat % 64 - 0x80) = c.toNat := by omega
          rw [hs, Char.ofNat_toNat, ih]

/-! ## The placeholder element -/

theorem isPrefixOfAppend (p r : List Char) : p.isPrefixOf (p ++ r) = true := by
  induction p with
  | nil => simp [List.isPrefixOf]
  | cons a p ih => simp [List.isPrefixOf, ih]

theorem base64Encode_ne_quote : ∀ bs : List Nat,
    ∀ c ∈ base64Encode bs, c ≠ '"' := by
  intro bs
  induction bs using base64Encode.induct with
  | case1 => intro c hc; exact absurd hc (List.not_mem_nil c)
  | case2 a =>
    intro c hc
    simp only [base64Encode, List.mem_cons, List.not_mem_nil, or_false] at hc
    rcases hc with hc | hc | hc | hc <;> rw [hc]
    · exact (b64Char_ne _).2
    · exact (b64Char_ne _).2
    · decide
    · decide
  | case3 a b =>
    intro c hc
    simp only [base64Encode, List.mem_cons, List.not_mem_nil, or_false] at hc
    rcases hc with hc | hc | hc | hc <;> rw [hc]
    · exact (b64Char_ne _).2
    · exact (b64Char_ne _).2
    · exact (b64Char_ne _).2
    · decide
  | case4 a b d rest ih =>
    intro c hc
    simp only [base64Encode, List.mem_cons] at hc
    rcases hc with hc | hc | hc | hc | hc
    · rw [hc]; exact (b64Char_ne _).2
    · rw [hc]; exact (b64Char_ne _).2
    · rw [hc]; exact (b64Char_ne _).2
    · rw [hc]; exact (b64Char_ne _).2
    · exact ih c hc

theorem takeWhile_until_quote : ∀ (p r : List Char), (∀ c ∈ p, c ≠ '"') →
    (p ++ '"' :: r).takeWhile (· ≠ '"') = p := by
  intro p r hp
  induction p with
  | nil => simp [List.takeWhile]
  | cons a p ih =>
    have ha : a ≠ '"' := hp a (List.mem_cons_self a p)
    rw [List.cons_append, List.takeWhile_cons_of_pos (by simp [ha])]
    rw [ih (fun c hc => hp c (List.mem_cons_of_mem a hc))]

/-- The client-side match recovers exactly the payload the pre-pass put
into the placeholder, provided the payload contains no quote (true of
every base64 string). -/
theorem mermaidPartPayload_placeholder (payload : List Char)
    (h : ∀ c ∈ payload, c ≠ '"') :
    mermaidPartPayload (placeholderDiv payload) = some payload := by
  unfold mermaidPartPayload placeholderDiv
  rw [List.append_assoc, if_pos (isPrefixOfAppend _ _)]
  rw [List.drop_left]
  have hclose : placeholderClose = '"' :: "></div>".toList := rfl
  rw [hclose, takeWhile_until_quote _ _ h]

theorem replaceScanF_nil (tryM : List Char → Option (Nat × List Char)) :
    ∀ fuel, replaceScanF tryM fuel [] = [] := by
  intro fuel
  cases fuel <;> rfl

/-- When the matcher consumes the entire string, the scan returns just
the replacement. -/
theorem replaceScanF_all (tryM : List Char → Option (Nat × List Char))
    (s rep : List Char) (fuel : Nat)
    (htry : tryM s = some (s.length, rep)) (hne : s ≠ [])
    (hfuel : s.length ≤ fuel) : replaceScanF tryM fuel s = rep := by
  cases s with
  | nil => exact absurd rfl hne
  | cons c r =>
    cases fuel with
    | zero => simp at hfuel
    | succ f =>
      simp only [replaceScanF, htry]
      rw [List.drop_length, replaceScanF_nil, List.append_nil]

/-- The pre-pass matcher applied to a whole fenced block: when the lazy
search for the closing fence stops exactly at the block's own closing
fence (the hypothesis), the matcher consumes the entire block and emits
the placeholder for the trimmed inner text. -/
theorem mermaidTry_fence (chart : List Char)
    (h : findSub "\n```".toList (chart ++ "\n```".toList) =
      some chart.length) :
    mermaidTry ("```mermaid\n".toList ++ chart ++ "\n```".toList) =
      some (("```mermaid\n".toList ++ chart ++ "\n```".toList).length,
        placeholderDiv (mermaidPayload chart)) := by
  unfold mermaidTry
  rw [List.append_assoc, if_pos (isPrefixOfAppend _ _)]
  have hd : ("```mermaid\n".toList ++ (chart ++ "\n```".toList)).drop 11 =
      chart ++ "\n```".toList := by
    rw [show (11 : Nat) = ("```mermaid\n".toList).length from by decide]
    exact List.drop_left _ _
  rw [hd, h]
  show some (11 + chart.length + 4,
    placeholderDiv (mermaidPayload
      (List.take chart.length (chart ++ "\n```".toList)))) = _
  rw [List.take_left]
  rw [List.length_append, List.length_append]
  rw [show ("```mermaid\n".toList).length = 11 from by decide,
    show ("\n```".toList).length = 4 from by decide, Nat.add_assoc]

/-- C1 (amended): for every fenced diagram block, the emitted placeholder
carries the base64 payload of the TRIMMED inner text, the client-side
match recovers that payload, and decoding it yields exactly the trimmed
inner text — hence the round trip is byte-for-byte exact precisely when
the inner text has no leading or trailing whitespace, as in the
scenario `"A-->B"`.  The hypothesis states that the lazy search for a
closing fence stops at the block's own closing fence (no earlier
newline-plus-three-backticks occurrence). -/
theorem C1_placeholder_roundtrip (chart : List Char)
    (h : findSub "\n```".toList (chart ++ "\n```".toList) =
      some chart.length) :
    mermaidPrePass ("```mermaid\n".toList ++ chart ++ "\n```".toList) =
      placeholderDiv (mermaidPayload chart) ∧
    mermaidPartPayload (placeholderDiv (mermaidPayload chart)) =
      some (mermaidPayload chart) ∧
    decodePayload (mermaidPayload chart) = jsTrim chart := by
  refine ⟨?_, ?_, ?_⟩
  · unfold mermaidPrePass replaceScan
    refine replaceScanF_all _ _ _ _ (mermaidTry_fence chart h) ?_ le_rfl
    intro he
    rw [List.append_eq_nil, List.append_eq_nil] at he
    exact absurd he.1.1 (by decide)
  · exact mermaidPartPayload_placeholder _
      (fun c hc => base64Encode_ne_quote _ c hc)
  · unfold decodePayload mermaidPayload
    rw [base64_roundtrip _ (utf8Encode_lt _), utf8_roundtrip]

/-- Witness for C1 at the specification's scenario chart `"A-->B"` (whose
trimmed inner text equals the inner text itself). -/
theorem C1_placeholder_roundtrip_witness :
    (mermaidPrePass
        ("```mermaid\n".toList ++ "A-->B".toList ++ "\n```".toList) =
      placeholderDiv (mermaidPayload "A-->B".toList) ∧
    mermaidPartPayload (placeholderDiv (mermaidPayload "A-->B".toList)) =
      some (mermaidPayload "A-->B".toList) ∧
    decodePayload (mermaidPayload "A-->B".toList) = jsTrim "A-->B".toList) :=
  C1_placeholder_roundtrip "A-->B".toList (by decide)

/-- Counterexample to C1 as stated: for the fenced block whose inner text
is `" A-->B "`, the placeholder payload decodes to the trimmed `"A-->B"`,
not byte-for-byte to the original inner text. -/
theorem C1_trim_counterexample :
    (mermaidPartPayload
        (mermaidPrePass "```mermaid\n A-->B \n```".toList)).map
      decodePayload = some "A-->B".toList ∧
    "A-->B".toList ≠ " A-->B ".toList := by decide

end Blog
